import Mathlib

/-!
Verification of the `wh.py` commit-timeline report tool.

This file gives a shallow embedding of `wh.py` (a script that merges the
git logs of several repositories, sorts them by date, and prints an
aligned, word-wrapped report) and proves or refutes the specification
claims about it.

Conventions:
* Python strings are embedded as `String` where only whole-value
  operations (length, lookup, equality) matter, and as `List Char` where
  the proofs need character-level recursion (body splitting / wrapping).
* Python dicts built by `get_repo_logs` are embedded as association
  lists `List (String × String)` in insertion order.
* Python's dynamically typed argument values (`None`, `str`, `int`) are
  embedded as the inductive `PyVal`; this matters because `argparse`
  stores command-line values as strings while built-in defaults may be
  `int` or `None`.
* Process state (the current working directory) is threaded explicitly;
  exceptions are `Except Unit`.
-/

namespace WH

/-! ## Python string primitives

Embeddings of the Python `str` operations the script uses. They are
written by structural (or fuel-indexed structural) recursion on
`List Char` so that every definition evaluates inside the kernel on
concrete inputs. -/

/-- Python `str.strip()`: remove leading and trailing whitespace. -/
def chStrip (s : List Char) : List Char :=
  ((s.dropWhile Char.isWhitespace).reverse.dropWhile Char.isWhitespace).reverse

/-- Fuel-indexed worker for `chSplitOn`. Each step either consumes one
separator occurrence (at least one character, enforced by the
`0 < sep.length` guard) or one ordinary character, so fuel
`s.length + 1` always suffices. -/
def chSplitOnGo (fuel : Nat) (sep : List Char) (s : List Char) : List (List Char) :=
  match fuel, s with
  | _, [] => [[]]
  | 0, s => [s]
  | fuel+1, c :: rest =>
    if 0 < sep.length ∧ sep.isPrefixOf (c :: rest) then
      [] :: chSplitOnGo fuel sep (List.drop sep.length (c :: rest))
    else
      match chSplitOnGo fuel sep rest with
      | [] => [[c]]
      | seg :: segs => (c :: seg) :: segs

/-- Python `s.split(sep)` for a non-empty separator: non-overlapping
occurrences scanned left to right; a separator at the edge yields an
empty segment. -/
def chSplitOn (sep s : List Char) : List (List Char) :=
  chSplitOnGo (s.length + 1) sep s

/-- Digit-string to number, `Option.none` on empty or non-digit input. -/
def chToNatQ (s : List Char) : Option Nat :=
  if s ≠ [] ∧ s.all Char.isDigit then
    some (s.foldl (fun n c => n * 10 + (c.toNat - 48)) 0)
  else Option.none

/-- Python `int(str)`: surrounding whitespace is ignored, an optional
sign is allowed, the rest must be digits. -/
def chToIntQ (s : List Char) : Option Int :=
  match chStrip s with
  | '-' :: rest => (chToNatQ rest).map (fun n => -(n : Int))
  | '+' :: rest => (chToNatQ rest).map (fun n => (n : Int))
  | t => (chToNatQ t).map (fun n => (n : Int))

/-- Python `str.strip()` on `String`. -/
def pyStrip (s : String) : String := ⟨chStrip s.data⟩

/-- Python `s.split(sep)` on `String`. -/
def pySplitS (sep s : String) : List String :=
  (chSplitOn sep.data s.data).map (fun cs => (⟨cs⟩ : String))

/-- Python `sep.join(parts)`. -/
def pyJoin (sep : String) : List String → String
  | [] => ""
  | [x] => x
  | x :: rest => x ++ sep ++ pyJoin sep rest

/-- Python format spec `{x:<n}`: left-justify by padding with spaces to
width `n`; longer values are not truncated. -/
def padTo (s : String) (n : Nat) : String :=
  s ++ ⟨List.replicate (n - s.length) ' '⟩

/-! ## Command-line / configuration resolution (wh.py lines 30-47, 123-128, 150-151) -/

/-- Dynamically typed Python value, as relevant to the option-resolution
code: `None`, a string (every value coming from the command line), or an
int (the built-in width default and YAML integers). -/
inductive PyVal where
  | none : PyVal
  | str : String → PyVal
  | int : Int → PyVal
deriving DecidableEq, Repr

/-- Built-in default of the `--user` flag (`default=None`, wh.py line 38). -/
def userDefault : PyVal := PyVal.none

/-- Built-in default of the `--width` flag (`default=60`, wh.py line 46;
note: an `int`, while command-line values are stored as `str`). -/
def widthDefault : PyVal := PyVal.int 60

/-- Model of argparse storing an option: the parsed namespace holds the
command-line value when one was supplied (always a string, since the
`add_argument` calls pass no `type=`), and the built-in default otherwise. -/
def parsedArg (supplied : Option String) (dflt : PyVal) : PyVal :=
  (supplied.map PyVal.str).getD dflt

/-- wh.py lines 123-128: `get_arg(name, args, config)` returns
`config[name]` if `name in config and getattr(args, name) == parser.get_default(name)`,
else `getattr(args, name)`. -/
def get_arg (name : String) (argVal dflt : PyVal) (config : List (String × PyVal)) : PyVal :=
  match config.lookup name with
  | some v => if argVal = dflt then v else argVal
  | Option.none => argVal

/-- wh.py line 150: `user = get_arg("user", args, config)`. -/
def resolveUser (suppliedUser : Option String) (config : List (String × PyVal)) : PyVal :=
  get_arg "user" (parsedArg suppliedUser userDefault) userDefault config

/-- wh.py line 151 before the `int(...)` conversion:
`get_arg("width", args, config)`. -/
def resolveWidth (suppliedWidth : Option String) (config : List (String × PyVal)) : PyVal :=
  get_arg "width" (parsedArg suppliedWidth widthDefault) widthDefault config

/-- Python `int(...)` applied to a `PyVal` (`None` is a `TypeError`). -/
def pyInt : PyVal → Option Int
  | PyVal.str s => chToIntQ s.data
  | PyVal.int n => some n
  | PyVal.none => Option.none

/-- wh.py line 151: `width = int(get_arg("width", args, config))`. -/
def resolveWidthInt (suppliedWidth : Option String) (config : List (String × PyVal)) :
    Option Int :=
  pyInt (resolveWidth suppliedWidth config)

/-! ## Process state, `in_folder`, and the repository name resolver
(wh.py lines 54-71 and 98-120)

Process state is a current working directory plus an abstract remainder
`rest` standing for every other piece of mutable state; a raised Python
exception is `Except.error`. The filesystem environment `FS` records
which directories exist (`os.chdir` succeeds exactly on those) and what
`git config --get remote.origin.url` prints when run inside a given
directory (`Option.none` = the command fails). -/

/-- Process-global mutable state: the working directory plus an abstract
remainder standing for all other mutable state. -/
structure Proc (ρ : Type) where
  cwd : String
  rest : ρ
deriving DecidableEq, Repr

/-- Environment for the resolver: existing directories, and the remote
URL lookup result per directory (`Option.none` = lookup fails). -/
structure FS where
  dirs : List String
  remoteUrl : String → Option String

/-- wh.py lines 54-71, the `in_folder` decorator applied to a body `f`:
save `os.getcwd()`, `os.chdir(path)` (raising if `path` does not
exist), run the body, `os.chdir` back, return. There is no
`try/finally`: when the body raises, the error propagates with whatever
working directory the body left behind. -/
def inFolder {ρ α : Type} (dirs : List String) (path : String)
    (f : Proc ρ → Except Unit α × Proc ρ) (st : Proc ρ) : Except Unit α × Proc ρ :=
  if path ∈ dirs then
    match f { st with cwd := path } with
    | (Except.ok a, st2) => (Except.ok a, { st2 with cwd := st.cwd })
    | (Except.error e, st2) => (Except.error e, st2)
  else (Except.error (), st)

/-- Python `os.path.basename`: the part after the last slash. -/
def basenameLC (s : List Char) : List Char :=
  (s.reverse.takeWhile (fun c => c != '/')).reverse

/-- Python `out.replace(".git", "")`: remove every (non-overlapping,
left-to-right) occurrence of the substring `.git`. -/
def removeDotGit : List Char → List Char
  | '.' :: 'g' :: 'i' :: 't' :: rest => removeDotGit rest
  | c :: rest => c :: removeDotGit rest
  | [] => []

/-- wh.py lines 108-120, the body of `get_repo_name` (run inside the
`in_folder` decorator): save cwd, `os.chdir(repo_path)`, try the remote
URL lookup falling back to the folder name on any exception, chdir
back, and return the name with `.git` removed and stripped. -/
def get_repo_name_body {ρ : Type} (fs : FS) (repo_path : String) (st : Proc ρ) :
    Except Unit (List Char) × Proc ρ :=
  let current_path := st.cwd
  if repo_path ∈ fs.dirs then
    let st1 : Proc ρ := { st with cwd := repo_path }
    let out : List Char :=
      match fs.remoteUrl repo_path with
      | some o => basenameLC o.data
      | Option.none => basenameLC repo_path.data
    (Except.ok (chStrip (removeDotGit out)), { st1 with cwd := current_path })
  else (Except.error (), st)

/-- wh.py lines 98-120: `get_repo_name`, i.e. its body wrapped in the
`in_folder` decorator (the decorator receives `repo_path` as the chdir
target). -/
def get_repo_name {ρ : Type} (fs : FS) (repo_path : String) (st : Proc ρ) :
    Except Unit (List Char) × Proc ρ :=
  inFolder fs.dirs repo_path (get_repo_name_body fs repo_path) st

/-! ## Log fetching and record parsing (wh.py lines 17-18, 74-95, 156-171) -/

/-- wh.py line 17: the private record separator. -/
def SEP1 : String := ":AUXOouLEU9e387:"

/-- wh.py line 18: the private field separator. -/
def SEP2 : String := ":XDoHXS3OETHHU:"

/-- wh.py line 77: the field names zipped against each record. -/
def prettyKeys : List String := ["date", "user", "desc", "subject", "body"]

/-- A Python dict as built by `get_repo_logs`: an association list in
insertion order. -/
abbrev Dict := List (String × String)

/-- wh.py lines 92-95: one record of the git output,
`{key: part.strip() for key, part in zip(pretty_keys, line.split(SEP2))}`. -/
def parseLogRecord (line : String) : Dict :=
  (prettyKeys.zip (pySplitS SEP2 line)).map (fun kv => (kv.1, pyStrip kv.2))

/-- wh.py line 164: the survival test
`"date" in log and len(log["date"]) > 0`. -/
def hasDate (log : Dict) : Bool :=
  match log.lookup "date" with
  | some d => decide (0 < d.length)
  | Option.none => false

/-- One configured repository as the main loop sees it: its resolved
display name and the raw stdout of the `git log` invocation. -/
structure RepoData where
  name : String
  rawLog : String

/-- wh.py lines 91-95: the records parsed from one repository's raw
`git log` output (split on the record separator). -/
def parsedRecords (rd : RepoData) : List Dict :=
  (pySplitS SEP1 rd.rawLog).map parseLogRecord

/-- wh.py line 167: `log["name"] = name` (the key `name` is never among
`prettyKeys`, so this inserts at the end of the dict). -/
def decorate (log : Dict) (name : String) : Dict :=
  log ++ [("name", name)]

/-- wh.py lines 161-167: the surviving, name-decorated records of one
repository. -/
def repoSurviving (rd : RepoData) : List Dict :=
  ((parsedRecords rd).filter hasDate).map (fun log => decorate log rd.name)

/-- wh.py lines 156-171: `logs += new_logs` over the configured
repositories in configuration order. -/
def allLogs (repos : List RepoData) : List Dict :=
  repos.flatMap repoSurviving

/-! ## Dates and the merge/sort (wh.py lines 173-175) -/

/-- Model of `datetime.datetime.strptime(s, "%Y-%m-%d")` followed by
`datetime` comparison, encoded as `y * 10000 + m * 100 + d` (this agrees
with date order because `m ≤ 12 < 100` and `d ≤ 31 < 100`). Month-length
and leap-year validation of the `datetime` constructor is simplified to
`d ≤ 31`. -/
def dateVal (s : String) : Option Nat :=
  match (chSplitOn ['-'] s.data).map chToNatQ with
  | [some y, some m, some d] =>
    if y ≤ 9999 ∧ 1 ≤ m ∧ m ≤ 12 ∧ 1 ≤ d ∧ d ≤ 31 then some (y * 10000 + m * 100 + d)
    else Option.none
  | _ => Option.none

/-- The raw `date` field of a record. -/
def logDate (log : Dict) : Option String := log.lookup "date"

/-- The sort key of a record (defaulting to `0`; `mergeAndSort` only
sorts when every key is actually defined). -/
def keyD (log : Dict) : Nat :=
  (dateVal ((logDate log).getD "")).getD 0

/-- Comparison used by the sort: parsed dates, ascending. -/
def dateLe (a b : Dict) : Bool := decide (keyD a ≤ keyD b)

/-- Stable insertion: place `x` before the first element `y` with
`le x y`. -/
def insertStable {α : Type} (le : α → α → Bool) (x : α) : List α → List α
  | [] => [x]
  | y :: ys => if le x y then x :: y :: ys else y :: insertStable le x ys

/-- Stable sort by `le` (insertion sort). Python's `list.sort` is
specified to be stable; a stable comparison sort is extensionally
determined by its comparison, so stable insertion sort is a faithful
embedding of `logs.sort(key=...)` at wh.py line 173. -/
def sortStable {α : Type} (le : α → α → Bool) (l : List α) : List α :=
  l.foldr (insertStable le) []

/-- wh.py lines 173-175: `logs.sort(key=lambda x: strptime(x["date"], "%Y-%m-%d"))`.
`strptime` raises on a missing or malformed date, which aborts the
program: modelled as `Option.none`. -/
def mergeAndSort (logs : List Dict) : Option (List Dict) :=
  if logs.all (fun log => (dateVal ((logDate log).getD "")).isSome) then
    some (sortStable dateLe logs)
  else Option.none

/-- The sorted timeline of the whole run. -/
def sortedLogs (repos : List RepoData) : Option (List Dict) :=
  mergeAndSort (allLogs repos)

/-! ## The record normalizer (wh.py line 170) and its specified behavior -/

/-- wh.py line 170: the per-record body assignment
`log["body"] = log["body"]` — the place the specification's body
cleaning rules would run. It leaves the body unchanged (the `import re`
at wh.py line 2 is unused). -/
def normalizeBody (body : String) : String := body

/-- Remove a leading run of carriage-return/line-feed pairs. -/
def dropCrlf : List Char → List Char
  | '\r' :: '\n' :: rest => dropCrlf rest
  | s => s

/-- Fuel-indexed worker for the specified first cleaning pass: collapse
each run of CRLF pairs, optionally preceded by a sentence-ending
period, into a single period-plus-space. Every step consumes at least
one character, so fuel `s.length` suffices. -/
def pass1Go (fuel : Nat) (s : List Char) : List Char :=
  match fuel, s with
  | _, [] => []
  | 0, s => s
  | fuel+1, '.' :: '\r' :: '\n' :: rest => '.' :: ' ' :: pass1Go fuel (dropCrlf rest)
  | fuel+1, '\r' :: '\n' :: rest => '.' :: ' ' :: pass1Go fuel (dropCrlf rest)
  | fuel+1, c :: rest => c :: pass1Go fuel rest

/-- Second specified pass: strip remaining literal tab, newline and
carriage-return characters. -/
def stripCtl (s : List Char) : List Char :=
  s.filter (fun c => !(c == '\t' || c == '\n' || c == '\r'))

/-- Third specified pass: collapse each run of several spaces to one. -/
def squeezeSpaces : List Char → List Char
  | [] => []
  | c :: rest =>
    if c = ' ' ∧ rest.head? = some ' ' then squeezeSpaces rest
    else c :: squeezeSpaces rest

/-- Modelled from the spec: the Record Normalizer body-cleaning rules
(section 4.3) that wh.py line 170 was supposed to apply, in order:
collapse CRLF runs (optionally preceded by a period) to a single
period-plus-space, strip remaining tab/newline/carriage-return
characters, collapse multi-space runs, preserving `* ` bullet markers. -/
def specNormalizeBody (s : String) : String :=
  ⟨squeezeSpaces (stripCtl (pass1Go s.data.length s.data))⟩

/-! ## Word wrapping (textwrap model) and the report renderer
(wh.py lines 153-154, 177-198)

The script wraps with `textwrap.TextWrapper(width=width - 3,
fix_sentence_endings=True).wrap(section)`. The model below keeps the
essential behavior: whitespace is normalized away, the text is split
into words, words longer than the width are broken into width-sized
chunks, and words are packed greedily into lines of at most `width`
columns separated by single spaces. (The stdlib's hyphen splitting and
`fix_sentence_endings` double-spacing are not modelled; neither affects
which lines exist, only their internal spacing.) -/

/-- Split into whitespace-separated words; `acc` holds the current word
reversed. -/
def wordsAux (s : List Char) (acc : List Char) : List (List Char) :=
  match s with
  | [] => if acc.isEmpty then [] else [acc.reverse]
  | c :: rest =>
    if c.isWhitespace then
      if acc.isEmpty then wordsAux rest [] else acc.reverse :: wordsAux rest []
    else wordsAux rest (c :: acc)

/-- The whitespace-separated words of a string. -/
def pyWords (s : List Char) : List (List Char) := wordsAux s []

/-- Fuel-indexed worker for `breakChunks`; each step consumes at least
`max w 1 ≥ 1` characters, so fuel `word.length` suffices. -/
def breakChunksGo (fuel w : Nat) (s : List Char) : List (List Char) :=
  match fuel, s with
  | _, [] => []
  | 0, s => [s]
  | fuel+1, c :: rest =>
    List.take (max w 1) (c :: rest) :: breakChunksGo fuel w (List.drop (max w 1) (c :: rest))

/-- Break one word into chunks of at most `max w 1` characters
(textwrap's `break_long_words`). -/
def breakChunks (w : Nat) (word : List Char) : List (List Char) :=
  breakChunksGo word.length w word

/-- Greedy line filling: `cur` is the line under construction; a chunk
joins it when the single-space-joined result still fits in `w`. -/
def fillAux (w : Nat) (chunks : List (List Char)) (cur : List Char) : List (List Char) :=
  match chunks with
  | [] => [cur]
  | c :: rest =>
    if cur.length + 1 + c.length ≤ w then fillAux w rest (cur ++ ' ' :: c)
    else cur :: fillAux w rest c

/-- Model of `textwrap.TextWrapper(width=w).wrap(s)`: no lines for
whitespace-only input, otherwise greedy packing of the
(long-word-broken) words. -/
def wrapLC (w : Nat) (s : List Char) : List (List Char) :=
  match (pyWords s).flatMap (breakChunks w) with
  | [] => []
  | c :: rest => fillAux w rest c

/-- wh.py line 195: `log["body"].split("* ")`: split on non-overlapping
occurrences of the two-character separator `* `, scanned left to
right. -/
def splitStar : List Char → List (List Char)
  | [] => [[]]
  | [c] => [[c]]
  | c :: d :: rest =>
    if c = '*' ∧ d = ' ' then [] :: splitStar rest
    else
      match splitStar (d :: rest) with
      | [] => [[c]]
      | seg :: segs => (c :: seg) :: segs

/-- wh.py line 198: `line.replace("  ", " ", 500)` — replace at most
`cnt` non-overlapping double spaces left to right, not rescanning the
replacement. -/
def pyReplace2sp (cnt : Nat) (s : List Char) : List Char :=
  match s with
  | [] => []
  | [c] => [c]
  | c :: d :: rest =>
    match cnt with
    | 0 => c :: d :: rest
    | cnt+1 =>
      if c = ' ' ∧ d = ' ' then ' ' :: pyReplace2sp cnt rest
      else c :: pyReplace2sp (cnt+1) (d :: rest)

/-- wh.py lines 190 and 198: one printed body line,
`body_template.format(s, line.replace("  ", " ", 500))` where
`body_template` is `indent` followed by `" {} {}"`. -/
def renderBodyLine (indent : List Char) (s : Char) (line : List Char) : List Char :=
  indent ++ ' ' :: s :: ' ' :: pyReplace2sp 500 line

/-- wh.py lines 196-198: the printed lines of one body segment,
`for idx, line in enumerate(body_wrapper.wrap(section))` with prefix
`"*" if idx == 0 else " "`. -/
def renderSection (indent : List Char) (w : Nat) (sec : List Char) : List (List Char) :=
  (List.enum (wrapLC w sec)).map
    (fun p => renderBodyLine indent (if p.1 == 0 then '*' else ' ') p.2)

/-- The segment rendering the specification describes: the first
wrapped line of a segment prefixed with `*`, every later wrapped line
with a blank placeholder of the same width. Used to compare the code's
enumerate-based loop against the specified shape. -/
def starBlock (indent : List Char) (lines : List (List Char)) : List (List Char) :=
  match lines with
  | [] => []
  | first :: rest =>
    renderBodyLine indent '*' first :: rest.map (renderBodyLine indent ' ')

/-- wh.py lines 195-198: all printed body lines of one record with body
text `body`, wrapped at width `w` (the caller passes `width - 3`). -/
def renderBody (indent : List Char) (w : Nat) (body : List Char) : List (List Char) :=
  (splitStar body).flatMap (renderSection indent w)

/-- wh.py lines 194-198: the body lines are printed only when
`len(log["body"]) > 2`, wrapped by `body_wrapper` of width `width - 3`
(line 154). -/
def renderEntryBody (indent : List Char) (width : Nat) (body : List Char) : List (List Char) :=
  if 2 < body.length then renderBody indent (width - 3) body else []

/-! ## Column widths and the summary template (wh.py lines 157, 166-190) -/

/-- wh.py line 169: `max_lengths[key] = max(max_lengths[key], len(val))`
for one `(key, val)` item. -/
def updateMax (ml : String → Nat) (kv : String × String) : String → Nat :=
  fun k => if k = kv.1 then max (ml k) kv.2.length else ml k

/-- wh.py lines 157 and 166-169: the `defaultdict(int)` of maximum field
lengths, accumulated over every surviving record's items. -/
def maxLengthsOf (logs : List Dict) : String → Nat :=
  logs.foldl (fun ml log => log.foldl updateMax ml) (fun _ => 0)

/-- The lengths of the values stored under key `k` across all records
(the quantity the specification says each column width equals). -/
def fieldLens (logs : List Dict) (k : String) : List Nat :=
  logs.flatMap (fun log => (log.filter (fun kv => kv.1 == k)).map (fun kv => kv.2.length))

/-- Python truthiness of the resolved `user` option (wh.py line 184
`if user:`). -/
def pyTruthy : PyVal → Bool
  | PyVal.none => false
  | PyVal.str s => decide (s ≠ "")
  | PyVal.int n => decide (n ≠ 0)

/-- wh.py lines 178-187: the summary-line template: the displayed
columns with their padding widths (`Option.none` for the unpadded
subject column), with the user column deleted when an author filter is
in effect (`del meta_template[1]`). -/
def metaTemplate (user : PyVal) (ml : String → Nat) : List (String × Option Nat) :=
  let cols : List (String × Option Nat) :=
    [("date", some (ml "date")), ("user", some (ml "user")),
     ("name", some (ml "name")), ("subject", Option.none)]
  if pyTruthy user then cols.eraseIdx 1 else cols

/-- One rendered cell of the summary line: the record's field value,
left-justified to the column width. -/
def cellOf (log : Dict) (col : String × Option Nat) : String :=
  match col.2 with
  | some w => padTo ((log.lookup col.1).getD "") w
  | Option.none => (log.lookup col.1).getD ""

/-- wh.py lines 187 and 193: `template = "  ".join(meta_template)`
filled with one record's fields. -/
def renderMeta (cols : List (String × Option Nat)) (log : Dict) : String :=
  pyJoin "  " (cols.map (cellOf log))

/-- Python dict assignment `d[k] = v`: replace in place when the key
exists, append otherwise. -/
def dictSet (log : Dict) (k v : String) : Dict :=
  match log with
  | [] => [(k, v)]
  | kv :: rest => if kv.1 = k then (k, v) :: rest else kv :: dictSet rest k v

/-- wh.py lines 177-198: everything printed to stdout, given the sorted
records `logs` and the pre-sort maximum lengths `ml`. Nothing at all is
printed when `logs` is empty (`if len(logs) > 0`); otherwise the body
indent is the rendered width of `logs[0]` with an emptied subject
(lines 188-190), and each record prints its summary line followed by
its wrapped body lines. -/
def mainOutput (user : PyVal) (width : Nat) (ml : String → Nat) (logs : List Dict) :
    List String :=
  if 0 < logs.length then
    let cols := metaTemplate user ml
    let fake := dictSet (logs.headD []) "subject" ""
    let indent := List.replicate (renderMeta cols fake).length ' '
    logs.flatMap (fun log =>
      renderMeta cols log ::
        (renderEntryBody indent width (((log.lookup "body").getD "").data)).map
          (fun cs => (⟨cs⟩ : String)))
  else []

/-- The whole run: fetch and filter per repository, sort, render;
`Option.none` is the fatal sort-time date error. -/
def programOutput (repos : List RepoData) (user : PyVal) (width : Nat) :
    Option (List String) :=
  (sortedLogs repos).map (mainOutput user width (maxLengthsOf (allLogs repos)))

/-! ## C3: command-line precedence over configuration -/

/-- C3: an explicitly supplied command-line value always takes
precedence over the configuration file — including values equal to the
built-in default, because argparse stores command-line values as
strings while the built-in defaults are `None` (user) and the int `60`
(width), so the sentinel comparison in `get_arg` can never mistake an
explicit value for an unset flag (`PyVal.str s` differs from both
defaults for every `s`, e.g. `--width 60` resolves to `int("60") = 60`
regardless of the configuration). An unset flag falls back to the
configuration value, and absent that, to the built-in default. -/
theorem c3_cli_precedence : ∀ (s : String) (config : List (String × PyVal)),
    resolveUser (some s) config = PyVal.str s ∧
    resolveWidth (some s) config = PyVal.str s ∧
    resolveWidthInt (some "60") config = some 60 ∧
    resolveUser Option.none config = (config.lookup "user").getD PyVal.none ∧
    resolveWidth Option.none config = (config.lookup "width").getD (PyVal.int 60) := by
  intro s config
  refine ⟨?_, ?_, ?_, ?_, ?_⟩
  · unfold resolveUser get_arg parsedArg userDefault
    cases config.lookup "user" <;> simp
  · unfold resolveWidth get_arg parsedArg widthDefault
    cases config.lookup "width" <;> simp
  · unfold resolveWidthInt resolveWidth get_arg parsedArg widthDefault
    cases config.lookup "width" <;> simp <;> decide
  · unfold resolveUser get_arg parsedArg userDefault
    cases config.lookup "user" <;> simp
  · unfold resolveWidth get_arg parsedArg widthDefault
    cases config.lookup "width" <;> simp

/-! ## C4: the repository name resolver -/

/-- C4 fails as stated: the resolver raises for a non-existent path
(the decorator's `os.chdir` runs outside the `try`), and the fallback
name is not the final path segment verbatim — `.git` substrings are
removed from it (a folder named `my.gitrepo` resolves to `myrepo`). -/
theorem c4_counterexample :
    (get_repo_name ⟨[], fun _ => Option.none⟩ "/gone/repo"
        (⟨"/home", ()⟩ : Proc Unit)).1 = Except.error () ∧
    get_repo_name ⟨["/tmp/my.gitrepo"], fun _ => Option.none⟩ "/tmp/my.gitrepo"
        (⟨"/home", ()⟩ : Proc Unit)
      = (Except.ok "myrepo".data, (⟨"/home", ()⟩ : Proc Unit)) ∧
    "myrepo".data ≠ basenameLC "/tmp/my.gitrepo".data := by
  refine ⟨rfl, rfl, by decide⟩

/-- C4 (amended): for every path that exists (so `os.chdir` succeeds),
the resolver never raises and restores the process state; when the
remote-URL lookup fails for any reason it returns the final path
segment of the given path with every `.git` substring removed and
surrounding whitespace stripped (hence verbatim whenever the segment
contains neither). -/
theorem c4_resolver_fallback {ρ : Type} (fs : FS) (path : String) (st : Proc ρ)
    (h : path ∈ fs.dirs) :
    (∃ nm, get_repo_name fs path st = (Except.ok nm, st)) ∧
    (fs.remoteUrl path = Option.none →
      get_repo_name fs path st
        = (Except.ok (chStrip (removeDotGit (basenameLC path.data))), st)) := by
  unfold get_repo_name inFolder get_repo_name_body
  rw [if_pos h]
  constructor
  · cases hr : fs.remoteUrl path <;> simp [h, hr]
  · intro hr
    simp [h, hr]

/-- Witness for C4 (amended): a concrete existing directory with no
remote resolves, without raising, to its stripped folder name. -/
theorem c4_witness :
    (∃ nm, get_repo_name ⟨["/r/proj"], fun _ => Option.none⟩ "/r/proj"
        (⟨"/home", ()⟩ : Proc Unit) = (Except.ok nm, (⟨"/home", ()⟩ : Proc Unit))) ∧
    ((⟨["/r/proj"], fun _ => Option.none⟩ : FS).remoteUrl "/r/proj" = Option.none →
      get_repo_name ⟨["/r/proj"], fun _ => Option.none⟩ "/r/proj"
          (⟨"/home", ()⟩ : Proc Unit)
        = (Except.ok (chStrip (removeDotGit (basenameLC "/r/proj".data))),
           (⟨"/home", ()⟩ : Proc Unit))) :=
  c4_resolver_fallback ⟨["/r/proj"], fun _ => Option.none⟩ "/r/proj"
    (⟨"/home", ()⟩ : Proc Unit) (by decide)

/-! ## C5: the scoped working-directory change -/

/-- C5 fails as stated: `in_folder` has no `try/finally`, so when the
wrapped function raises, the working directory is not restored — here
it stays `/repo` instead of returning to `/home`. -/
theorem c5_counterexample :
    inFolder ["/repo"] "/repo" (fun st => ((Except.error () : Except Unit Nat), st))
        (⟨"/home", ()⟩ : Proc Unit)
      = (Except.error (), (⟨"/repo", ()⟩ : Proc Unit)) ∧
    ("/repo" : String) ≠ "/home" := by
  exact ⟨rfl, by decide⟩

/-- C5 (amended): the wrapper changes the working directory to the
target for the duration of the call and restores the prior value when
the wrapped function returns normally, mutating no state other than
`cwd` itself (the abstract remainder of the state is exactly what the
body left); but when the wrapped function raises, the exception
propagates with the working directory left as the body left it — it is
not restored. -/
theorem c5_scoped_cwd {ρ α : Type} (dirs : List String) (path : String)
    (f : Proc ρ → Except Unit α × Proc ρ) (st : Proc ρ) (h : path ∈ dirs) :
    (∀ a st2, f { st with cwd := path } = (Except.ok a, st2) →
      inFolder dirs path f st = (Except.ok a, { st2 with cwd := st.cwd })) ∧
    (∀ st2, f { st with cwd := path } = (Except.error (), st2) →
      inFolder dirs path f st = (Except.error (), st2)) := by
  unfold inFolder
  rw [if_pos h]
  constructor
  · intro a st2 hf; rw [hf]
  · intro st2 hf; rw [hf]

/-- Witness for C5 (amended): a normally returning body gets its result
through with the working directory restored. -/
theorem c5_witness :
    inFolder ["/r"] "/r" (fun s => (Except.ok (7 : Nat), s))
        (⟨"/h", ()⟩ : Proc Unit)
      = (Except.ok 7, (⟨"/h", ()⟩ : Proc Unit)) :=
  (c5_scoped_cwd ["/r"] "/r" (fun s => (Except.ok (7 : Nat), s))
    (⟨"/h", ()⟩ : Proc Unit) (by decide)).1 7 ⟨"/r", ()⟩ rfl

/-! ## C7: the body normalization that line 170 fails to perform -/

/-- C7 identifies a code bug: wh.py line 170 reads
`log["body"] = log["body"]`, a no-op, while the specified normalizer
(whose removal is betrayed by the unused `import re` at line 2) would
collapse the CRLF run after the period and the double space. At the
failing input the code leaves the body byte-for-byte unchanged and in
particular still containing a carriage return, diverging from every
clause of the claim. -/
theorem c7_normalizer_missing :
    normalizeBody "fix.\r\nmore  text" = "fix.\r\nmore  text" ∧
    specNormalizeBody "fix.\r\nmore  text" = "fix. more text" ∧
    normalizeBody "fix.\r\nmore  text" ≠ specNormalizeBody "fix.\r\nmore  text" := by
  refine ⟨rfl, by decide, by decide⟩

/-! ## Stable sort lemmas -/

theorem insertStable_perm {α : Type} (le : α → α → Bool) (x : α) (l : List α) :
    (insertStable le x l).Perm (x :: l) := by
  induction l with
  | nil => exact List.Perm.refl _
  | cons y ys ih =>
    unfold insertStable
    by_cases h : le x y = true
    · rw [if_pos h]
    · rw [if_neg h]
      exact (List.Perm.cons y ih).trans (List.Perm.swap x y ys)

theorem sortStable_perm {α : Type} (le : α → α → Bool) (l : List α) :
    (sortStable le l).Perm l := by
  induction l with
  | nil => exact List.Perm.refl _
  | cons a l ih =>
    exact (insertStable_perm le a (sortStable le l)).trans (List.Perm.cons a ih)

theorem pairwise_insertStable {α : Type} (le : α → α → Bool)
    (htot : ∀ a b, le a b = true ∨ le b a = true)
    (htrans : ∀ a b c, le a b = true → le b c = true → le a c = true)
    (x : α) (l : List α) (hl : l.Pairwise (fun a b => le a b = true)) :
    (insertStable le x l).Pairwise (fun a b => le a b = true) := by
  induction l with
  | nil => simp [insertStable]
  | cons y ys ih =>
    rw [List.pairwise_cons] at hl
    unfold insertStable
    by_cases h : le x y = true
    · rw [if_pos h]
      refine List.Pairwise.cons ?_ (List.Pairwise.cons hl.1 hl.2)
      intro z hz
      rcases List.mem_cons.mp hz with rfl | hz
      · exact h
      · exact htrans x y z h (hl.1 z hz)
    · rw [if_neg h]
      refine List.Pairwise.cons ?_ (ih hl.2)
      intro z hz
      have hz' := (insertStable_perm le x ys).mem_iff.mp hz
      rcases List.mem_cons.mp hz' with rfl | hz'
      · exact (htot z y).resolve_left h
      · exact hl.1 z hz'

theorem sortStable_pairwise {α : Type} (le : α → α → Bool)
    (htot : ∀ a b, le a b = true ∨ le b a = true)
    (htrans : ∀ a b c, le a b = true → le b c = true → le a c = true)
    (l : List α) :
    (sortStable le l).Pairwise (fun a b => le a b = true) := by
  induction l with
  | nil => simp [sortStable]
  | cons a l ih => exact pairwise_insertStable le htot htrans a (sortStable le l) ih

theorem filter_insertStable_pos {α : Type} (le : α → α → Bool) (p : α → Bool)
    (hp : ∀ a b, p a = true → p b = true → le a b = true)
    (x : α) (l : List α) (hx : p x = true) :
    (insertStable le x l).filter p = x :: l.filter p := by
  induction l with
  | nil => simp [insertStable, hx]
  | cons y ys ih =>
    unfold insertStable
    by_cases h : le x y = true
    · rw [if_pos h, List.filter_cons_of_pos hx]
    · rw [if_neg h]
      have hy : p y = false := by
        cases hpy : p y
        · rfl
        · exact absurd (hp x y hx hpy) h
      rw [List.filter_cons_of_neg (by simp [hy]), List.filter_cons_of_neg (by simp [hy]), ih]

theorem filter_insertStable_neg {α : Type} (le : α → α → Bool) (p : α → Bool)
    (x : α) (l : List α) (hx : p x = false) :
    (insertStable le x l).filter p = l.filter p := by
  induction l with
  | nil => simp [insertStable, hx]
  | cons y ys ih =>
    unfold insertStable
    by_cases h : le x y = true
    · rw [if_pos h, List.filter_cons_of_neg (by simp [hx])]
    · rw [if_neg h]
      cases hy : p y
      · rw [List.filter_cons_of_neg (by simp [hy]), List.filter_cons_of_neg (by simp [hy]), ih]
      · rw [List.filter_cons_of_pos hy, List.filter_cons_of_pos hy, ih]

theorem filter_sortStable {α : Type} (le : α → α → Bool) (p : α → Bool)
    (hp : ∀ a b, p a = true → p b = true → le a b = true) (l : List α) :
    (sortStable le l).filter p = l.filter p := by
  induction l with
  | nil => rfl
  | cons a l ih =>
    show (insertStable le a (sortStable le l)).filter p = _
    cases ha : p a
    · rw [filter_insertStable_neg le p a _ ha, ih, List.filter_cons_of_neg (by simp [ha])]
    · rw [filter_insertStable_pos le p hp a _ ha, ih, List.filter_cons_of_pos ha]

theorem dateLe_total (a b : Dict) : dateLe a b = true ∨ dateLe b a = true := by
  unfold dateLe
  rcases Nat.le_total (keyD a) (keyD b) with h | h
  · exact Or.inl (decide_eq_true h)
  · exact Or.inr (decide_eq_true h)

theorem dateLe_trans (a b c : Dict) (h1 : dateLe a b = true) (h2 : dateLe b c = true) :
    dateLe a c = true := by
  unfold dateLe at *
  exact decide_eq_true (Nat.le_trans (of_decide_eq_true h1) (of_decide_eq_true h2))

/-! ## C1: the merge/sort is a stable sort by date -/

/-- C1: when every record's date parses, the merger/sorter succeeds and
its output is a permutation of the concatenation of the per-repository
sequences (taken in configuration order), is sorted non-decreasing by
parsed date, and is stable: for every date string, the records carrying
exactly that date appear in the same relative order as in the
concatenation. -/
theorem c1_merge_sort_stable (seqs : List (List Dict))
    (h : ∀ log ∈ seqs.flatten, (dateVal ((logDate log).getD "")).isSome = true) :
    ∃ out, mergeAndSort seqs.flatten = some out ∧
      out.Perm seqs.flatten ∧
      out.Pairwise (fun a b => keyD a ≤ keyD b) ∧
      ∀ s : String,
        out.filter (fun log => logDate log == some s)
          = seqs.flatten.filter (fun log => logDate log == some s) := by
  refine ⟨sortStable dateLe seqs.flatten, ?_, sortStable_perm dateLe seqs.flatten, ?_, ?_⟩
  · unfold mergeAndSort
    rw [if_pos (List.all_eq_true.mpr h)]
  · exact (sortStable_pairwise dateLe dateLe_total dateLe_trans seqs.flatten).imp
      (fun hab => of_decide_eq_true hab)
  · intro s
    refine filter_sortStable dateLe _ ?_ seqs.flatten
    intro a b ha hb
    have ha' : logDate a = some s := by simpa using ha
    have hb' : logDate b = some s := by simpa using hb
    unfold dateLe keyD
    rw [ha', hb']
    exact decide_eq_true (Nat.le_refl _)

/-- Witness for C1 at two one-record repositories with distinct
well-formed dates. -/
theorem c1_witness :
    ∃ out,
      mergeAndSort ([[[("date", "2024-01-05")]], [[("date", "2024-01-01")]]] :
          List (List Dict)).flatten = some out ∧
      out.Perm ([[[("date", "2024-01-05")]], [[("date", "2024-01-01")]]] :
          List (List Dict)).flatten ∧
      out.Pairwise (fun a b => keyD a ≤ keyD b) ∧
      ∀ s : String,
        out.filter (fun log => logDate log == some s)
          = ([[[("date", "2024-01-05")]], [[("date", "2024-01-01")]]] :
              List (List Dict)).flatten.filter (fun log => logDate log == some s) :=
  c1_merge_sort_stable _ (by decide)

/-! ## C2: records without a date are dropped before sorting -/

theorem hasDate_iff (log : Dict) :
    hasDate log = true ↔ ∃ d, log.lookup "date" = some d ∧ 0 < d.length := by
  unfold hasDate
  cases h : log.lookup "date" with
  | none => simp
  | some d => simp

theorem logDate_decorate (log : Dict) (n : String) :
    logDate (decorate log n) = logDate log := by
  unfold logDate decorate
  induction log with
  | nil => simp [List.lookup]
  | cons kv rest ih =>
    rcases kv with ⟨k, v⟩
    cases h : (("date" : String) == k) <;> simp [List.lookup, h, ih]

/-- C2: every record in the sorted timeline handed to the renderer
carries a present, non-empty date field; and a raw parsed record whose
date field is absent, or empty after trimming, never appears there
(whatever name it would have been decorated with). -/
theorem c2_date_filter (repos : List RepoData) (out : List Dict)
    (h : sortedLogs repos = some out) :
    (∀ log ∈ out, ∃ d, logDate log = some d ∧ d ≠ "") ∧
    (∀ rd ∈ repos, ∀ raw ∈ parsedRecords rd,
      logDate raw = Option.none ∨ logDate raw = some "" →
      ∀ n, decorate raw n ∉ out) := by
  unfold sortedLogs mergeAndSort at h
  by_cases hall :
      (allLogs repos).all (fun log => (dateVal ((logDate log).getD "")).isSome) = true
  case neg => rw [if_neg hall] at h; exact absurd h (by simp)
  rw [if_pos hall] at h
  have hout : out = sortStable dateLe (allLogs repos) := by
    injection h with h'
    exact h'.symm
  subst hout
  have hfirst : ∀ log ∈ sortStable dateLe (allLogs repos),
      ∃ d, logDate log = some d ∧ d ≠ "" := by
    intro log hmem
    have hmem' : log ∈ allLogs repos :=
      ((sortStable_perm dateLe (allLogs repos)).mem_iff).mp hmem
    rcases List.mem_flatMap.mp hmem' with ⟨rd, hrd, hlog⟩
    unfold repoSurviving at hlog
    rcases List.mem_map.mp hlog with ⟨log', hlog', rfl⟩
    have hdate := (List.mem_filter.mp hlog').2
    rcases (hasDate_iff log').mp hdate with ⟨d, hd, hdpos⟩
    refine ⟨d, ?_, ?_⟩
    · rw [logDate_decorate]
      exact hd
    · intro heq
      rw [heq] at hdpos
      simp at hdpos
  refine ⟨hfirst, ?_⟩
  intro rd hrd raw hraw hbad n hmem
  rcases hfirst _ hmem with ⟨d, hd, hne⟩
  rw [logDate_decorate] at hd
  rcases hbad with hbad | hbad
  · rw [hbad] at hd
    exact Option.noConfusion hd
  · rw [hbad] at hd
    injection hd with hd'
    exact hne hd'.symm

/-- Witness for C2 at a single repository whose raw output parses to a
single record with a well-formed date. -/
theorem c2_witness :
    (∀ log ∈ ([[("date", "2024-01-05"), ("name", "r")]] : List Dict),
      ∃ d, logDate log = some d ∧ d ≠ "") ∧
    (∀ rd ∈ [RepoData.mk "r" "2024-01-05"], ∀ raw ∈ parsedRecords rd,
      logDate raw = Option.none ∨ logDate raw = some "" →
      ∀ n, decorate raw n ∉ ([[("date", "2024-01-05"), ("name", "r")]] : List Dict)) :=
  c2_date_filter [RepoData.mk "r" "2024-01-05"] _ (by decide)

/-! ## C6: the bullet prefixes of the rendered body lines -/

theorem enumFrom_succ_map_space (ind : List Char) :
    ∀ (l : List (List Char)) (i : Nat),
      ((List.enumFrom (i + 1) l).map
          fun p => renderBodyLine ind (if p.1 == 0 then '*' else ' ') p.2)
        = l.map (renderBodyLine ind ' ') := by
  intro l
  induction l with
  | nil => intro i; rfl
  | cons a l ih =>
    intro i
    have h0 : ((i + 1 : Nat) == 0) = false := by simp
    simp only [List.enumFrom_cons, List.map_cons, h0, Bool.false_eq_true, if_false]
    rw [ih (i + 1)]

theorem renderSection_eq_starBlock (ind : List Char) (w : Nat) (sec : List Char) :
    renderSection ind w sec = starBlock ind (wrapLC w sec) := by
  unfold renderSection starBlock
  cases h : wrapLC w sec with
  | nil => rfl
  | cons first rest =>
    rw [List.enum_cons, List.map_cons]
    have h0 : ((0 : Nat) == 0) = true := by decide
    simp only [h0, if_true]
    rw [enumFrom_succ_map_space ind rest 0]

/-- C6 fails as stated: at the concrete body `intro* bullet` the first
segment `intro` is non-empty and not itself a bullet, yet its (only)
wrapped line is rendered with the `*` prefix, exactly like the bulleted
segment — the code prefixes `*` to the first wrapped line of every
segment, including the first. -/
theorem c6_counterexample :
    renderEntryBody [] 60 "intro* bullet".data
      = [" * intro".data, " * bullet".data] ∧
    "intro".data ≠ ([] : List Char) ∧
    splitStar "intro* bullet".data = ["intro".data, "bullet".data] := by
  refine ⟨by decide, by decide, by decide⟩

/-- C6 (amended): for every body, the renderer splits on the bullet
marker `* `, and for every resulting segment — including a non-empty,
non-bullet first segment — wraps it and prefixes the first wrapped line
with `*` and each subsequent wrapped line with a one-space placeholder
of the same width. -/
theorem c6_star_every_segment (ind : List Char) (w : Nat) (body : List Char) :
    renderBody ind w body
      = (splitStar body).flatMap (fun sec => starBlock ind (wrapLC w sec)) := by
  unfold renderBody
  have h : renderSection ind w = fun sec => starBlock ind (wrapLC w sec) :=
    funext (renderSection_eq_starBlock ind w)
  rw [h]

/-! ## C8: the two-character body threshold -/

theorem wordsAux_mem_ne_nil : ∀ (s acc w : List Char), w ∈ wordsAux s acc → w ≠ [] := by
  intro s
  induction s with
  | nil =>
    intro acc w hw
    unfold wordsAux at hw
    by_cases ha : acc.isEmpty = true
    · rw [if_pos ha] at hw
      simp at hw
    · rw [if_neg ha] at hw
      rcases List.mem_singleton.mp hw with rfl
      simpa [List.reverse_eq_nil_iff] using fun e => ha (by simp [e])
  | cons c rest ih =>
    intro acc w hw
    unfold wordsAux at hw
    by_cases hc : c.isWhitespace = true
    · rw [if_pos hc] at hw
      by_cases ha : acc.isEmpty = true
      · rw [if_pos ha] at hw
        exact ih [] w hw
      · rw [if_neg ha] at hw
        rcases List.mem_cons.mp hw with rfl | hw
        · simpa [List.reverse_eq_nil_iff] using fun e => ha (by simp [e])
        · exact ih [] w hw
    · rw [if_neg hc] at hw
      exact ih (c :: acc) w hw

theorem wordsAux_ne_nil : ∀ (s acc : List Char),
    (∃ c ∈ s, c.isWhitespace = false) ∨ acc ≠ [] → wordsAux s acc ≠ [] := by
  intro s
  induction s with
  | nil =>
    intro acc h
    rcases h with ⟨c, hc, _⟩ | ha
    · simp at hc
    · unfold wordsAux
      rw [if_neg (fun e => ha (List.isEmpty_iff.mp e))]
      simp
  | cons c rest ih =>
    intro acc h
    unfold wordsAux
    by_cases hc : c.isWhitespace = true
    · rw [if_pos hc]
      by_cases ha : acc.isEmpty = true
      · rw [if_pos ha]
        apply ih []
        left
        rcases h with ⟨c', hc', hws⟩ | hacc
        · rcases List.mem_cons.mp hc' with rfl | hmem
          · rw [hc] at hws
            exact absurd hws (by simp)
          · exact ⟨c', hmem, hws⟩
        · exact absurd (List.isEmpty_iff.mp ha) hacc
      · rw [if_neg ha]
        simp
    · rw [if_neg hc]
      apply ih (c :: acc)
      right
      simp

theorem pyWords_ne_nil (s : List Char) (h : ∃ c ∈ s, c.isWhitespace = false) :
    pyWords s ≠ [] :=
  wordsAux_ne_nil s [] (Or.inl h)

theorem breakChunks_ne_nil (w : Nat) (word : List Char) (h : word ≠ []) :
    breakChunks w word ≠ [] := by
  cases word with
  | nil => exact absurd rfl h
  | cons c rest =>
    unfold breakChunks
    rw [List.length_cons]
    show (List.take (max w 1) (c :: rest) :: _) ≠ []
    simp

theorem breakChunksGo_chunk_le (w : Nat) : ∀ (fuel : Nat) (s : List Char),
    s.length ≤ fuel → ∀ ch ∈ breakChunksGo fuel w s, ch.length ≤ max w 1 := by
  intro fuel
  induction fuel with
  | zero =>
    intro s hs ch hch
    have hnil : s = [] := List.length_eq_zero.mp (Nat.le_zero.mp hs)
    subst hnil
    simp [breakChunksGo] at hch
  | succ fuel ih =>
    intro s hs ch hch
    cases s with
    | nil => simp [breakChunksGo] at hch
    | cons c rest =>
      rcases List.mem_cons.mp hch with rfl | hch'
      · rw [List.length_take]
        exact min_le_left _ _
      · refine ih (List.drop (max w 1) (c :: rest)) ?_ ch hch'
        rw [List.length_drop, List.length_cons]
        rw [List.length_cons] at hs
        have hm : 1 ≤ max w 1 := le_max_right w 1
        omega

theorem fillAux_ne_nil (w : Nat) : ∀ (chunks : List (List Char)) (cur : List Char),
    fillAux w chunks cur ≠ [] := by
  intro chunks
  induction chunks with
  | nil => intro cur; simp [fillAux]
  | cons c rest ih =>
    intro cur
    unfold fillAux
    by_cases hfit : cur.length + 1 + c.length ≤ w
    · rw [if_pos hfit]
      exact ih _
    · rw [if_neg hfit]
      simp

theorem fillAux_line_le (w : Nat) : ∀ (chunks : List (List Char)) (cur : List Char),
    (∀ c ∈ chunks, c.length ≤ max w 1) → cur.length ≤ max w 1 →
    ∀ l ∈ fillAux w chunks cur, l.length ≤ max w 1 := by
  intro chunks
  induction chunks with
  | nil =>
    intro cur hch hcur l hl
    simp [fillAux] at hl
    subst hl
    exact hcur
  | cons c rest ih =>
    intro cur hch hcur l hl
    unfold fillAux at hl
    by_cases hfit : cur.length + 1 + c.length ≤ w
    · rw [if_pos hfit] at hl
      refine ih _ (fun c' hc' => hch c' (List.mem_cons_of_mem _ hc')) ?_ l hl
      rw [List.length_append, List.length_cons]
      have := le_max_left w 1
      omega
    · rw [if_neg hfit] at hl
      rcases List.mem_cons.mp hl with rfl | hl'
      · exact hcur
      · exact ih _ (fun c' hc' => hch c' (List.mem_cons_of_mem _ hc'))
          (hch c (List.mem_cons_self _ _)) l hl'

theorem wrapLC_ne_nil (w : Nat) (s : List Char) (h : ∃ c ∈ s, c.isWhitespace = false) :
    wrapLC w s ≠ [] := by
  unfold wrapLC
  cases hw : pyWords s with
  | nil => exact absurd hw (pyWords_ne_nil s h)
  | cons w0 ws =>
    have hw0 : w0 ≠ [] := by
      refine wordsAux_mem_ne_nil s [] w0 ?_
      show w0 ∈ pyWords s
      rw [hw]
      exact List.mem_cons_self _ _
    cases hbc : breakChunks w w0 with
    | nil => exact absurd hbc (breakChunks_ne_nil w w0 hw0)
    | cons ch chs =>
      simp only [List.flatMap_cons, hbc, List.cons_append]
      exact fillAux_ne_nil w _ _

theorem wrapLC_line_le (w : Nat) (s : List Char) :
    ∀ l ∈ wrapLC w s, l.length ≤ max w 1 := by
  intro l hl
  unfold wrapLC at hl
  cases hflat : (pyWords s).flatMap (breakChunks w) with
  | nil =>
    rw [hflat] at hl
    simp at hl
  | cons ch chs =>
    rw [hflat] at hl
    have hall : ∀ c ∈ ch :: chs, c.length ≤ max w 1 := by
      rw [← hflat]
      intro c hc
      rcases List.mem_flatMap.mp hc with ⟨word, _, hcw⟩
      exact breakChunksGo_chunk_le w word.length word (Nat.le_refl _) c hcw
    exact fillAux_line_le w chs ch (fun c hc => hall c (List.mem_cons_of_mem _ hc))
      (hall ch (List.mem_cons_self _ _)) l hl

theorem splitStar_ne_nil (s : List Char) : splitStar s ≠ [] := by
  match s with
  | [] => simp [splitStar]
  | [c] => simp [splitStar]
  | c :: d :: rest =>
    simp only [splitStar]
    by_cases h : c = '*' ∧ d = ' '
    · rw [if_pos h]
      simp
    · rw [if_neg h]
      cases splitStar (d :: rest) <;> simp

theorem splitStar_has_word (s : List Char) :
    ∀ c, s.getLast? = some c → c.isWhitespace = false →
      ∃ seg ∈ splitStar s, ∃ ch ∈ seg, ch.isWhitespace = false := by
  induction s using splitStar.induct with
  | case1 =>
    intro c hc _
    simp at hc
  | case2 c0 =>
    intro c hc hws
    rw [List.getLast?_singleton] at hc
    injection hc with hc'
    subst hc'
    exact ⟨[c0], by simp [splitStar], c0, by simp, hws⟩
  | case3 c0 d rest hcond ih =>
    intro c hc hws
    obtain ⟨rfl, rfl⟩ := hcond
    cases rest with
    | nil =>
      rw [List.getLast?_cons_cons, List.getLast?_singleton] at hc
      injection hc with hc'
      subst hc'
      exact absurd hws (by decide)
    | cons e rest' =>
      rw [List.getLast?_cons_cons, List.getLast?_cons_cons] at hc
      rcases ih c hc hws with ⟨seg, hseg, hch⟩
      refine ⟨seg, ?_, hch⟩
      show seg ∈ splitStar ('*' :: ' ' :: e :: rest')
      simp only [splitStar, if_pos (⟨rfl, rfl⟩ : '*' = '*' ∧ ' ' = ' ')]
      exact List.mem_cons_of_mem _ hseg
  | case4 c0 d rest hcond heq ih =>
    intro c hc hws
    exact absurd heq (splitStar_ne_nil _)
  | case5 c0 d rest hcond seg segs heq ih =>
    intro c hc hws
    rw [List.getLast?_cons_cons] at hc
    rcases ih c hc hws with ⟨seg', hseg', hch⟩
    rw [heq] at hseg'
    have hsplit : splitStar (c0 :: d :: rest) = (c0 :: seg) :: segs := by
      simp only [splitStar, if_neg hcond, heq]
    rcases List.mem_cons.mp hseg' with rfl | hmem
    · rcases hch with ⟨ch, hchm, hchws⟩
      refine ⟨c0 :: seg', ?_, ch, List.mem_cons_of_mem _ hchm, hchws⟩
      rw [hsplit]
      exact List.mem_cons_self _ _
    · refine ⟨seg', ?_, hch⟩
      rw [hsplit]
      exact List.mem_cons_of_mem _ hmem

theorem chStrip_getLast (s : List Char) (hne : s ≠ []) (h : chStrip s = s) :
    ∃ c, s.getLast? = some c ∧ c.isWhitespace = false := by
  unfold chStrip at h
  have hrev : s.reverse
      = (s.dropWhile Char.isWhitespace).reverse.dropWhile Char.isWhitespace := by
    conv_lhs => rw [← h]
    rw [List.reverse_reverse]
  have hne' : s.reverse ≠ [] := by
    simpa [List.reverse_eq_nil_iff] using hne
  have hd : (s.dropWhile Char.isWhitespace).reverse.dropWhile Char.isWhitespace ≠ [] := by
    rw [← hrev]
    exact hne'
  refine ⟨((s.dropWhile Char.isWhitespace).reverse.dropWhile Char.isWhitespace).head hd,
    ?_, List.head_dropWhile_not Char.isWhitespace _ hd⟩
  rw [← List.head?_reverse, hrev]
  exact List.head?_eq_head hd

theorem pyReplace2sp_length : ∀ (cnt : Nat) (s : List Char),
    (pyReplace2sp cnt s).length ≤ s.length := by
  intro cnt s
  induction cnt, s using pyReplace2sp.induct with
  | case1 cnt => simp [pyReplace2sp]
  | case2 cnt c => simp [pyReplace2sp]
  | case3 c d rest => simp [pyReplace2sp]
  | case4 c d rest cnt hcond ih =>
    obtain ⟨rfl, rfl⟩ := hcond
    show (' ' :: pyReplace2sp cnt rest).length ≤ (' ' :: ' ' :: rest).length
    simp only [List.length_cons]
    omega
  | case5 c d rest cnt hcond ih =>
    show (if c = ' ' ∧ d = ' ' then ' ' :: pyReplace2sp cnt rest
      else c :: pyReplace2sp (cnt + 1) (d :: rest)).length ≤ (c :: d :: rest).length
    rw [if_neg hcond]
    simp only [List.length_cons]
    rw [List.length_cons] at ih
    omega

theorem snd_mem_enumFrom {α : Type} : ∀ (l : List α) (i : Nat) (p : Nat × α),
    p ∈ List.enumFrom i l → p.2 ∈ l := by
  intro l
  induction l with
  | nil =>
    intro i p hp
    simp at hp
  | cons a l ih =>
    intro i p hp
    rw [List.enumFrom_cons] at hp
    rcases List.mem_cons.mp hp with rfl | hp'
    · simp
    · exact List.mem_cons_of_mem _ (ih (i + 1) p hp')

/-- C8: for a record whose (stripped, as every fetched field is) body
has at most two characters, the renderer emits no continuation lines;
for a body of more than two characters, continuation lines are produced
— at least one, and each wrapped at the body wrapper's width
`width - 3` (so no rendered line exceeds the indent, the three prefix
characters, and the wrap width). -/
theorem c8_body_threshold (width : Nat) (indent body : List Char)
    (hstrip : chStrip body = body) :
    (body.length ≤ 2 → renderEntryBody indent width body = []) ∧
    (2 < body.length →
      renderEntryBody indent width body ≠ [] ∧
      ∀ line ∈ renderEntryBody indent width body,
        line.length ≤ indent.length + 3 + max (width - 3) 1) := by
  constructor
  · intro hle
    unfold renderEntryBody
    rw [if_neg (by omega)]
  · intro hgt
    have hbody : renderEntryBody indent width body = renderBody indent (width - 3) body := by
      unfold renderEntryBody
      rw [if_pos hgt]
    constructor
    · rw [hbody]
      have hne : body ≠ [] := by
        intro e
        rw [e] at hgt
        simp at hgt
      rcases chStrip_getLast body hne hstrip with ⟨c, hc, hws⟩
      rcases splitStar_has_word body c hc hws with ⟨seg, hseg, hch⟩
      unfold renderBody
      intro hnil
      have hsec : renderSection indent (width - 3) seg = [] :=
        (List.flatMap_eq_nil_iff.mp hnil) seg hseg
      unfold renderSection at hsec
      have hwrap : wrapLC (width - 3) seg = [] := by
        cases hw : wrapLC (width - 3) seg with
        | nil => rfl
        | cons a l =>
          rw [hw, List.enum_cons] at hsec
          simp at hsec
      exact wrapLC_ne_nil (width - 3) seg hch hwrap
    · intro line hline
      rw [hbody] at hline
      unfold renderBody at hline
      rcases List.mem_flatMap.mp hline with ⟨seg, _, hl⟩
      unfold renderSection at hl
      rcases List.mem_map.mp hl with ⟨p, hp, rfl⟩
      have hp2 : p.2 ∈ wrapLC (width - 3) seg := snd_mem_enumFrom _ 0 p hp
      have hlen := wrapLC_line_le (width - 3) seg p.2 hp2
      have hrep : (pyReplace2sp 500 p.2).length ≤ p.2.length := pyReplace2sp_length 500 p.2
      unfold renderBodyLine
      rw [List.length_append]
      simp only [List.length_cons]
      omega

/-- Witness for C8: a two-character body yields no continuation lines,
a four-character body yields at least one. -/
theorem c8_witness :
    renderEntryBody [] 60 "ab".data = [] ∧ renderEntryBody [] 60 "abcd".data ≠ [] := by
  constructor
  · exact (c8_body_threshold 60 [] "ab".data (by decide)).1 (by decide)
  · exact ((c8_body_threshold 60 [] "abcd".data (by decide)).2 (by decide)).1

/-! ## C9: the column widths of the summary template -/

theorem lookup_mem : ∀ {l : Dict} {k v : String}, l.lookup k = some v → (k, v) ∈ l := by
  intro l
  induction l with
  | nil =>
    intro k v h
    simp [List.lookup] at h
  | cons kv rest ih =>
    intro k v h
    rcases kv with ⟨k', v'⟩
    cases hk : (k == k')
    · simp only [List.lookup, hk] at h
      exact List.mem_cons_of_mem _ (ih h)
    · simp only [List.lookup, hk] at h
      injection h with h'
      have hkk : k = k' := eq_of_beq hk
      subst hkk
      subst h'
      exact List.mem_cons_self _ _

theorem foldl_max_init_le (l : List Nat) : ∀ init : Nat, init ≤ l.foldl max init := by
  induction l with
  | nil => intro init; exact Nat.le_refl _
  | cons a l ih =>
    intro init
    rw [List.foldl_cons]
    exact Nat.le_trans (Nat.le_max_left init a) (ih (max init a))

theorem mem_le_foldl_max (l : List Nat) : ∀ (init x : Nat), x ∈ l → x ≤ l.foldl max init := by
  induction l with
  | nil =>
    intro init x hx
    simp at hx
  | cons a l ih =>
    intro init x hx
    rw [List.foldl_cons]
    rcases List.mem_cons.mp hx with rfl | hx'
    · exact Nat.le_trans (Nat.le_max_right init x) (foldl_max_init_le l _)
    · exact ih _ x hx'

theorem foldl_updateMax (k : String) : ∀ (log : Dict) (ml : String → Nat),
    (log.foldl updateMax ml) k
      = ((log.filter (fun kv => kv.1 == k)).map (fun kv => kv.2.length)).foldl
          max (ml k) := by
  intro log
  induction log with
  | nil => intro ml; rfl
  | cons kv rest ih =>
    intro ml
    rw [List.foldl_cons, ih (updateMax ml kv)]
    cases hk : (kv.1 == k)
    · rw [List.filter_cons_of_neg (by simp [hk])]
      have hupd : updateMax ml kv k = ml k := by
        unfold updateMax
        rw [if_neg (fun e => by rw [e] at hk; simp at hk)]
      rw [hupd]
    · rw [List.filter_cons_of_pos (p := fun kv : String × String => kv.1 == k) hk,
        List.map_cons, List.foldl_cons]
      have hupd : updateMax ml kv k = max (ml k) kv.2.length := by
        unfold updateMax
        rw [if_pos (eq_of_beq hk).symm]
      rw [hupd]

theorem maxLengthsOf_eq (logs : List Dict) (k : String) :
    maxLengthsOf logs k = (fieldLens logs k).foldl max 0 := by
  suffices h : ∀ (ml : String → Nat),
      (logs.foldl (fun ml log => log.foldl updateMax ml) ml) k
        = (fieldLens logs k).foldl max (ml k) from h (fun _ => 0)
  induction logs with
  | nil => intro ml; rfl
  | cons log rest ih =>
    intro ml
    rw [List.foldl_cons, ih (log.foldl updateMax ml)]
    unfold fieldLens
    rw [List.flatMap_cons, List.foldl_append, foldl_updateMax k log ml]

theorem padTo_length (s : String) (n : Nat) : (padTo s n).length = max n s.length := by
  unfold padTo
  rw [String.length_append]
  have hrep : (⟨List.replicate (n - s.length) ' '⟩ : String).length = n - s.length :=
    List.length_replicate _ _
  rw [hrep]
  omega

theorem metaTemplate_eq (user : PyVal) (ml : String → Nat) :
    metaTemplate user ml
      = if pyTruthy user = true then
          [("date", some (ml "date")), ("name", some (ml "name")),
           ("subject", (Option.none : Option Nat))]
        else
          [("date", some (ml "date")), ("user", some (ml "user")),
           ("name", some (ml "name")), ("subject", (Option.none : Option Nat))] := by
  unfold metaTemplate
  cases h : pyTruthy user <;> rfl

/-- C9: the width recorded for every key is exactly the maximum length
of that field over all surviving records; the summary template pads the
`date`, `user` and `name` columns with exactly those maxima, omitting
the `user` column precisely when the author filter is truthy, and joins
the cells with two spaces; and for every record and every field it
actually carries, the padded cell comes out at exactly the column
width, so the columns align. -/
theorem c9_column_widths (logs : List Dict) (user : PyVal) :
    (∀ k, maxLengthsOf logs k = (fieldLens logs k).foldl max 0) ∧
    (metaTemplate user (maxLengthsOf logs)
      = if pyTruthy user = true then
          [("date", some (maxLengthsOf logs "date")),
           ("name", some (maxLengthsOf logs "name")),
           ("subject", (Option.none : Option Nat))]
        else
          [("date", some (maxLengthsOf logs "date")),
           ("user", some (maxLengthsOf logs "user")),
           ("name", some (maxLengthsOf logs "name")),
           ("subject", (Option.none : Option Nat))]) ∧
    (∀ log ∈ logs, ∀ k v, log.lookup k = some v →
      cellOf log (k, some (maxLengthsOf logs k)) = padTo v (maxLengthsOf logs k) ∧
      (padTo v (maxLengthsOf logs k)).length = maxLengthsOf logs k) ∧
    (∀ log, renderMeta (metaTemplate user (maxLengthsOf logs)) log
      = pyJoin "  " ((metaTemplate user (maxLengthsOf logs)).map (cellOf log))) := by
  refine ⟨maxLengthsOf_eq logs, metaTemplate_eq user (maxLengthsOf logs), ?_,
    fun log => rfl⟩
  intro log hlog k v hv
  have hvm : (k, v) ∈ log := lookup_mem hv
  have hmem : v.length ∈ fieldLens logs k := by
    unfold fieldLens
    refine List.mem_flatMap.mpr ⟨log, hlog, ?_⟩
    exact List.mem_map.mpr ⟨(k, v), List.mem_filter.mpr ⟨hvm, by simp⟩, rfl⟩
  have hle : v.length ≤ maxLengthsOf logs k := by
    rw [maxLengthsOf_eq]
    exact mem_le_foldl_max _ 0 _ hmem
  constructor
  · unfold cellOf
    rw [hv]
    rfl
  · rw [padTo_length]
    omega

/-- Witness for C9: a one-record input sets the date column width to
exactly that record's date length. -/
theorem c9_witness :
    cellOf [("date", "2024-01-05"), ("name", "r")]
        ("date", some (maxLengthsOf [[("date", "2024-01-05"), ("name", "r")]] "date"))
      = padTo "2024-01-05" (maxLengthsOf [[("date", "2024-01-05"), ("name", "r")]] "date") ∧
    (padTo "2024-01-05" (maxLengthsOf [[("date", "2024-01-05"), ("name", "r")]] "date")).length
      = maxLengthsOf [[("date", "2024-01-05"), ("name", "r")]] "date" :=
  (c9_column_widths [[("date", "2024-01-05"), ("name", "r")]] PyVal.none).2.2.1
    [("date", "2024-01-05"), ("name", "r")] (by decide) "date" "2024-01-05" (by decide)

/-! ## C10: an empty merged list prints nothing -/

/-- C10: when no records survive fetching and date filtering, the run
succeeds and writes nothing at all to standard output — no header, no
blank lines, no partial report. -/
theorem c10_empty_output (repos : List RepoData) (user : PyVal) (width : Nat)
    (h : allLogs repos = []) :
    programOutput repos user width = some [] := by
  unfold programOutput sortedLogs mergeAndSort
  rw [h]
  simp [sortStable, mainOutput]

/-- Witness for C10: a repository whose only parsed record has an empty
date survives nothing, and the program prints nothing. -/
theorem c10_witness : programOutput [RepoData.mk "r" ""] PyVal.none 60 = some [] :=
  c10_empty_output [RepoData.mk "r" ""] PyVal.none 60 (by decide)

end WH
